import Mathlib

/-!
Shallow embedding of the analysis core of `text_analyzer.py` from the
repository GAZEL0/ghazal-text-analyzer, and proofs of its specified
properties.

Texts are modelled as `List Char`.  The sentiment analyzer
(`SentimentIntensityAnalyzer.polarity_scores`, an external NLTK
dependency) is modelled as an abstract function from the cleaned text to
a record of rational scores; the analysis code never looks inside it.
-/

namespace TextAnalyzer

/-- Python's `str.isspace` / default `str.strip` whitespace test,
restricted to the ASCII range: space, tab, newline, carriage return,
vertical tab and form feed. -/
def pyIsSpace (c : Char) : Bool :=
  c == ' ' || c == '\t' || c == '\n' || c == '\r' || c == '\x0b' || c == '\x0c'

/-- Python's `str.strip()`: drop whitespace from both ends
(`text.strip()` at the top of `analyze_text`). -/
def pyStrip (l : List Char) : List Char :=
  ((l.dropWhile pyIsSpace).reverse.dropWhile pyIsSpace).reverse

/-- Python's `str.lower()`, per character (ASCII range). -/
def pyLower (c : Char) : Char := c.toLower

/-- A regex `\w` word character (ASCII range): alphanumeric or underscore. -/
def wordChar (c : Char) : Bool := c.isAlphanum || c == '_'

/-- A character matched by the regex character class `[\w']`. -/
def tokenClass (c : Char) : Bool := wordChar c || c == '\''

/-- Drop apostrophes from both ends of a character run. -/
def trimApos (l : List Char) : List Char :=
  ((l.dropWhile (fun c => c == '\'')).reverse.dropWhile (fun c => c == '\'')).reverse

/-- Emit the token, if any, produced by one maximal `[\w']` run.  `acc`
holds the run's characters in reverse.  A run matches `\b[\w']+\b` iff it
contains at least one `\w` character, and the match is the run with its
leading and trailing apostrophes dropped (the word boundaries force the
match to begin and end at `\w` characters; apostrophes and the characters
adjacent to a run are all non-`\w`, so no boundary exists next to them). -/
def emitRun (acc : List Char) (toks : List (List Char)) : List (List Char) :=
  match trimApos acc.reverse with
  | [] => toks
  | c :: cs => (c :: cs) :: toks

/-- Worker for `tokenize`: scan the text, accumulating the current
maximal run of `[\w']` characters in `acc` (reversed). -/
def tokenizeAux (acc : List Char) : List Char → List (List Char)
  | [] => emitRun acc []
  | c :: rest =>
      if tokenClass c then tokenizeAux (c :: acc) rest
      else emitRun acc (tokenizeAux [] rest)

/-- `re.findall(r"\b[\w']+\b", text)`: the word tokens of the text, in
order of occurrence. -/
def tokenize (l : List Char) : List (List Char) := tokenizeAux [] l

/-- Number of occurrences of the word `w` in the token list `ws`
(the multiplicity recorded by `collections.Counter`). -/
def countOcc (w : List Char) (ws : List (List Char)) : Nat :=
  (ws.filter (fun v => v = w)).length

/-- The distinct words of `ws` in first-occurrence order: the key order
of `collections.Counter(ws)` (dict insertion order). -/
def dedupFirst : List (List Char) → List (List Char)
  | [] => []
  | a :: l => a :: (dedupFirst l).filter (fun b => b ≠ a)

/-- Insert a `(word, count)` pair into a list sorted by descending count,
before the first entry whose count does not exceed it: the placement a
stable descending sort gives. -/
def insertDesc (p : List Char × Nat) : List (List Char × Nat) → List (List Char × Nat)
  | [] => [p]
  | q :: qs => if q.2 ≤ p.2 then p :: q :: qs else q :: insertDesc p qs

/-- Stable sort of `(word, count)` pairs by descending count. -/
def sortDesc (l : List (List Char × Nat)) : List (List Char × Nat) :=
  l.foldr insertDesc []

/-- `collections.Counter(ws).most_common(n)`: the `n` most frequent
words with their counts, sorted by descending count; `Counter` keys are
in first-occurrence order and both `sorted` and `heapq.nlargest` are
stable, so ties are broken by first occurrence. -/
def mostCommon (n : Nat) (ws : List (List Char)) : List (List Char × Nat) :=
  (sortDesc ((dedupFirst ws).map (fun w => (w, countOcc w ws)))).take n

/-- The record returned by `polarity_scores`:
`{"compound": …, "pos": …, "neu": …, "neg": …}`.  Scores are modelled as
rationals. -/
structure SentimentScores where
  compound : ℚ
  pos : ℚ
  neu : ℚ
  neg : ℚ
deriving DecidableEq, Repr

/-- The all-zero score record `analyze_text` substitutes for empty text. -/
def zeroScores : SentimentScores := ⟨0, 0, 0, 0⟩

/-- `label_sentiment` from `text_analyzer.py`: map a compound score to a
three-way label. -/
def label_sentiment (score : ℚ) : String :=
  if 0.05 ≤ score then "Positive"
  else if score ≤ -0.05 then "Negative"
  else "Neutral"

/-- The dictionary returned by `analyze_text`. -/
structure AnalysisResult where
  words : Nat
  chars_with_spaces : Nat
  chars_without_spaces : Nat
  top_words : List (List Char × Nat)
  sentiment_label : String
  sentiment_scores : SentimentScores
  preview : List Char
deriving DecidableEq, Repr

/-- `analyze_text` from `text_analyzer.py`.  `analyzer` stands for the
`SentimentIntensityAnalyzer` instance, reduced to the one method the code
calls (`polarity_scores`, invoked on the cleaned text only when that text
is nonempty — Python's `if cleaned` truthiness test). -/
def analyze_text (text : List Char) (analyzer : List Char → SentimentScores) :
    AnalysisResult :=
  let cleaned := pyStrip text
  let words := tokenize (cleaned.map pyLower)
  let word_count := words.length
  let characters_with_spaces := cleaned.length
  let characters_without_spaces := (cleaned.filter (fun c => !(pyIsSpace c))).length
  let word_frequencies := mostCommon 5 words
  let sentiment_scores := if cleaned.isEmpty then zeroScores else analyzer cleaned
  let sentiment_label := label_sentiment sentiment_scores.compound
  { words := word_count
    chars_with_spaces := characters_with_spaces
    chars_without_spaces := characters_without_spaces
    top_words := word_frequencies
    sentiment_label := sentiment_label
    sentiment_scores := sentiment_scores
    preview := if 200 < cleaned.length then cleaned.take 200 ++ ['.', '.', '.'] else cleaned }

/-- A stub analyzer used to instantiate theorems at concrete inputs. -/
def zeroAnalyzer : List Char → SentimentScores := fun _ => zeroScores

/-- First-occurrence index of the word `w` in the token list `ws`
(`ws.length` when absent). -/
def firstIdx (w : List Char) : List (List Char) → Nat
  | [] => 0
  | a :: l => if a = w then 0 else firstIdx w l + 1

/-! ### Helper lemmas -/

lemma length_filter_add_length_filter_not (p : Char → Bool) (l : List Char) :
    (l.filter p).length + (l.filter (fun c => !(p c))).length = l.length := by
  induction l with
  | nil => rfl
  | cons c t ih =>
    cases h : p c <;> simp [List.filter_cons, h] <;> omega

/-! ### Theorems about the specified properties -/

/-- C5: for every input text, the `word_count` field of `analyze_text`
equals the number of tokens matched by the word regex on the lowercased
(cleaned) text. -/
theorem word_count_spec (t : List Char) (a : List Char → SentimentScores) :
    (analyze_text t a).words = (tokenize ((pyStrip t).map pyLower)).length := rfl

/-- C6: `chars_with_spaces` equals the length of the trimmed original
text, and `chars_without_spaces` equals that length minus the number of
whitespace characters in the trimmed text. -/
theorem char_counts_spec (t : List Char) (a : List Char → SentimentScores) :
    (analyze_text t a).chars_with_spaces = (pyStrip t).length ∧
    (analyze_text t a).chars_without_spaces =
      (pyStrip t).length - ((pyStrip t).filter pyIsSpace).length := by
  refine ⟨rfl, ?_⟩
  show ((pyStrip t).filter (fun c => !(pyIsSpace c))).length =
      (pyStrip t).length - ((pyStrip t).filter pyIsSpace).length
  have h := length_filter_add_length_filter_not pyIsSpace (pyStrip t)
  omega

/-- C2: for every compound score in `[-1, 1]`, the label produced by
`label_sentiment` is `"Positive"` iff the score is at least `0.05`,
`"Negative"` iff it is at most `-0.05`, and `"Neutral"` otherwise. -/
theorem label_sentiment_spec (c : ℚ) (_h1 : -1 ≤ c) (_h2 : c ≤ 1) :
    (label_sentiment c = "Positive" ↔ 0.05 ≤ c) ∧
    (label_sentiment c = "Negative" ↔ c ≤ -0.05) ∧
    (label_sentiment c = "Neutral" ↔ ¬0.05 ≤ c ∧ ¬c ≤ -0.05) := by
  unfold label_sentiment
  split_ifs with hp hn
  · exact ⟨iff_of_true rfl hp,
      iff_of_false (by decide) (fun hc => absurd hp (by linarith)),
      iff_of_false (by decide) (fun hc => hc.1 hp)⟩
  · exact ⟨iff_of_false (by decide) hp,
      iff_of_true rfl hn,
      iff_of_false (by decide) (fun hc => hc.2 hn)⟩
  · exact ⟨iff_of_false (by decide) hp,
      iff_of_false (by decide) hn,
      iff_of_true rfl ⟨hp, hn⟩⟩

/-- C2 witness: the specification of `label_sentiment` instantiated at
the concrete compound score `0`. -/
theorem label_sentiment_spec_witness :
    (label_sentiment 0 = "Positive" ↔ (0.05 : ℚ) ≤ 0) ∧
    (label_sentiment 0 = "Negative" ↔ (0 : ℚ) ≤ -0.05) ∧
    (label_sentiment 0 = "Neutral" ↔ ¬(0.05 : ℚ) ≤ 0 ∧ ¬(0 : ℚ) ≤ -0.05) :=
  label_sentiment_spec 0 (by norm_num) (by norm_num)

/-- C3: when the trimmed text is longer than 200 characters the preview
is its first 200 characters followed by `"..."` and has length exactly
203; otherwise the preview is the trimmed text unchanged. -/
theorem preview_spec (t : List Char) (a : List Char → SentimentScores) :
    (200 < (pyStrip t).length →
      (analyze_text t a).preview = (pyStrip t).take 200 ++ ['.', '.', '.'] ∧
      (analyze_text t a).preview.length = 203) ∧
    ((pyStrip t).length ≤ 200 → (analyze_text t a).preview = pyStrip t) := by
  have hpv : (analyze_text t a).preview =
      if 200 < (pyStrip t).length then (pyStrip t).take 200 ++ ['.', '.', '.']
      else pyStrip t := rfl
  constructor
  · intro h
    rw [hpv, if_pos h]
    refine ⟨rfl, ?_⟩
    rw [List.length_append, List.length_take]
    simp only [List.length_cons, List.length_nil]
    omega
  · intro h
    rw [hpv, if_neg (by omega)]

set_option maxRecDepth 8192 in
/-- C3 witness: `preview_spec` applied to a concrete 201-character text
(201 copies of `a`), discharging the length hypothesis. -/
theorem preview_spec_witness :
    (analyze_text (List.replicate 201 'a') zeroAnalyzer).preview =
      (pyStrip (List.replicate 201 'a')).take 200 ++ ['.', '.', '.'] ∧
    (analyze_text (List.replicate 201 'a') zeroAnalyzer).preview.length = 203 :=
  (preview_spec (List.replicate 201 'a') zeroAnalyzer).1 (by decide)

/-- The example input text of the specification's testable properties. -/
def exampleText : List Char := "Good good bad! great, GREAT.".toList

/-- C4: on the input `"Good good bad! great, GREAT."` the analyzer
tokenizes to `[good, good, bad, great, great]`, reports `word_count = 5`,
and ranks `top_words = [(good, 2), (great, 2), (bad, 1)]`, the tie between
`good` and `great` broken by first occurrence. -/
theorem example_good_bad_great (a : List Char → SentimentScores) :
    tokenize ((pyStrip exampleText).map pyLower) =
      ["good".toList, "good".toList, "bad".toList, "great".toList, "great".toList] ∧
    (analyze_text exampleText a).words = 5 ∧
    (analyze_text exampleText a).top_words =
      [("good".toList, 2), ("great".toList, 2), ("bad".toList, 1)] :=
  ⟨rfl, rfl, rfl⟩

/-- C7: an input that is empty (or trims to empty) produces the all-zero
result with label `"Neutral"` and empty preview, whatever the analyzer —
the sentiment function is never consulted on the empty branch. -/
theorem empty_text_spec (t : List Char) (a : List Char → SentimentScores)
    (h : pyStrip t = []) :
    analyze_text t a =
      { words := 0, chars_with_spaces := 0, chars_without_spaces := 0,
        top_words := [], sentiment_label := "Neutral",
        sentiment_scores := zeroScores, preview := [] } := by
  have hlab : label_sentiment zeroScores.compound = "Neutral" := by
    show label_sentiment 0 = "Neutral"
    unfold label_sentiment
    rw [if_neg (by norm_num), if_neg (by norm_num)]
  simp only [analyze_text, h, List.isEmpty_nil, eq_self_iff_true, if_true, hlab]
  rfl

/-- C7 witness: `empty_text_spec` applied to the empty text and the stub
analyzer. -/
theorem empty_text_spec_witness :
    analyze_text [] zeroAnalyzer =
      { words := 0, chars_with_spaces := 0, chars_without_spaces := 0,
        top_words := [], sentiment_label := "Neutral",
        sentiment_scores := zeroScores, preview := [] } :=
  empty_text_spec [] zeroAnalyzer rfl

/-- C8: `analyze_text` is deterministic — two analyzers that agree on the
polarity of the (cleaned) text yield identical results.  In this
embedding `analyze_text` is a pure function of its two arguments, so it
has no effect on any other state. -/
theorem deterministic_spec (t : List Char) (a1 a2 : List Char → SentimentScores)
    (h : a1 (pyStrip t) = a2 (pyStrip t)) :
    analyze_text t a1 = analyze_text t a2 := by
  simp only [analyze_text, h]

/-- C8 witness: `deterministic_spec` applied to a concrete text and two
(equal-valued) analyzers. -/
theorem deterministic_spec_witness :
    analyze_text "hi".toList zeroAnalyzer = analyze_text "hi".toList (fun _ => zeroScores) :=
  deterministic_spec "hi".toList zeroAnalyzer (fun _ => zeroScores) rfl

lemma dropWhile_dropWhile (p : Char → Bool) (l : List Char) :
    (l.dropWhile p).dropWhile p = l.dropWhile p := by
  induction l with
  | nil => rfl
  | cons c t ih =>
    rw [List.dropWhile_cons]
    split
    · exact ih
    · rw [List.dropWhile_cons]
      simp_all

lemma dropWhile_head_false (p : Char → Bool) :
    ∀ (l : List Char) (b : Char) (t : List Char), l.dropWhile p = b :: t → p b = false := by
  intro l
  induction l with
  | nil => intro b t h; cases h
  | cons c s ih =>
    intro b t h
    rw [List.dropWhile_cons] at h
    by_cases hc : p c
    · rw [if_pos hc] at h
      exact ih b t h
    · rw [if_neg hc] at h
      cases h
      exact Bool.not_eq_true _ ▸ (by simpa using hc)

lemma dropWhile_suffix (p : Char → Bool) (l : List Char) : l.dropWhile p <:+ l := by
  induction l with
  | nil => exact List.nil_suffix
  | cons c t ih =>
    rw [List.dropWhile_cons]
    split
    · exact ih.trans (List.suffix_cons c t)
    · exact List.suffix_refl _

lemma dropWhile_pyStrip (l : List Char) : (pyStrip l).dropWhile pyIsSpace = pyStrip l := by
  have hsuf : (l.dropWhile pyIsSpace).reverse.dropWhile pyIsSpace <:+
      (l.dropWhile pyIsSpace).reverse := dropWhile_suffix _ _
  have hpre : pyStrip l <+: l.dropWhile pyIsSpace := by
    apply List.reverse_suffix.1
    show (pyStrip l).reverse <:+ (l.dropWhile pyIsSpace).reverse
    unfold pyStrip
    rw [List.reverse_reverse]
    exact hsuf
  cases hB : pyStrip l with
  | nil => rfl
  | cons b B' =>
    rw [hB] at hpre
    obtain ⟨r, hr⟩ := hpre
    have hpb : pyIsSpace b = false := by
      apply dropWhile_head_false pyIsSpace l b (B' ++ r)
      rw [← hr]
      rfl
    rw [List.dropWhile_cons, if_neg (by simp [hpb])]

/-- `str.strip()` is idempotent. -/
lemma pyStrip_idem (l : List Char) : pyStrip (pyStrip l) = pyStrip l := by
  have h1 : (pyStrip l).dropWhile pyIsSpace = pyStrip l := dropWhile_pyStrip l
  show (((pyStrip l).dropWhile pyIsSpace).reverse.dropWhile pyIsSpace).reverse = pyStrip l
  rw [h1]
  have h2 : (pyStrip l).reverse.dropWhile pyIsSpace = (pyStrip l).reverse := by
    have hrev : (pyStrip l).reverse = (l.dropWhile pyIsSpace).reverse.dropWhile pyIsSpace := by
      unfold pyStrip
      rw [List.reverse_reverse]
    rw [hrev, dropWhile_dropWhile]
  rw [h2, List.reverse_reverse]

/-- C9: trimming invariance — analyzing the whitespace-trimmed text gives
exactly the same result as analyzing the original text, for every
analyzer. -/
theorem strip_invariance_spec (t : List Char) (a : List Char → SentimentScores) :
    analyze_text (pyStrip t) a = analyze_text t a := by
  simp only [analyze_text, pyStrip_idem]

/-! ### Lemmas about the frequency ranking -/

lemma mem_insertDesc (x p : List Char × Nat) (l : List (List Char × Nat)) :
    x ∈ insertDesc p l ↔ x = p ∨ x ∈ l := by
  induction l with
  | nil => simp [insertDesc]
  | cons q qs ih =>
    by_cases h : q.2 ≤ p.2
    · simp [insertDesc, h]
    · simp only [insertDesc, if_neg h, List.mem_cons, ih]
      tauto

lemma perm_insertDesc (p : List Char × Nat) (l : List (List Char × Nat)) :
    List.Perm (insertDesc p l) (p :: l) := by
  induction l with
  | nil => exact List.Perm.refl _
  | cons q qs ih =>
    by_cases h : q.2 ≤ p.2
    · simp [insertDesc, h]
    · have h1 : List.Perm (q :: insertDesc p qs) (q :: p :: qs) := ih.cons q
      have h2 : List.Perm (q :: p :: qs) (p :: q :: qs) := List.Perm.swap p q qs
      simpa [insertDesc, h] using h1.trans h2

lemma perm_sortDesc (l : List (List Char × Nat)) : List.Perm (sortDesc l) l := by
  induction l with
  | nil => exact List.Perm.refl _
  | cons a l ih =>
    show List.Perm (insertDesc a (sortDesc l)) (a :: l)
    exact (perm_insertDesc a (sortDesc l)).trans (ih.cons a)

lemma pairwise_ge_insertDesc {p : List Char × Nat} {l : List (List Char × Nat)}
    (h : l.Pairwise (fun x y => y.2 ≤ x.2)) :
    (insertDesc p l).Pairwise (fun x y => y.2 ≤ x.2) := by
  induction l with
  | nil => simp [insertDesc]
  | cons q qs ih =>
    rcases List.pairwise_cons.1 h with ⟨hq, hqs⟩
    by_cases hle : q.2 ≤ p.2
    · simp only [insertDesc, if_pos hle]
      refine List.pairwise_cons.2 ⟨?_, h⟩
      intro x hx
      rcases List.mem_cons.1 hx with rfl | hx'
      · exact hle
      · exact (hq x hx').trans hle
    · simp only [insertDesc, if_neg hle]
      refine List.pairwise_cons.2 ⟨?_, ih hqs⟩
      intro x hx
      rcases (mem_insertDesc x p qs).1 hx with rfl | hx'
      · exact le_of_not_le hle
      · exact hq x hx'

lemma sorted_sortDesc (l : List (List Char × Nat)) :
    (sortDesc l).Pairwise (fun x y => y.2 ≤ x.2) := by
  induction l with
  | nil => simp [sortDesc]
  | cons a l ih =>
    show (insertDesc a (sortDesc l)).Pairwise _
    exact pairwise_ge_insertDesc ih

lemma pairwise_insertDesc_of_vacuous {P : (List Char × Nat) → (List Char × Nat) → Prop}
    (hvac : ∀ a b, b.2 < a.2 → P a b) (p : List Char × Nat) :
    ∀ {l : List (List Char × Nat)},
      (∀ q ∈ l, P p q) → l.Pairwise P → (insertDesc p l).Pairwise P := by
  intro l
  induction l with
  | nil => intro _ _; simp [insertDesc]
  | cons q qs ih =>
    intro hall hpw
    rcases List.pairwise_cons.1 hpw with ⟨hq, hqs⟩
    by_cases hle : q.2 ≤ p.2
    · simp only [insertDesc, if_pos hle]
      refine List.pairwise_cons.2 ⟨?_, hpw⟩
      intro x hx
      exact hall x hx
    · simp only [insertDesc, if_neg hle]
      refine List.pairwise_cons.2
        ⟨?_, ih (fun x hx => hall x (List.mem_cons_of_mem q hx)) hqs⟩
      intro x hx
      rcases (mem_insertDesc x p qs).1 hx with rfl | hx'
      · exact hvac q x (lt_of_not_le hle)
      · exact hq x hx'

lemma pairwise_sortDesc_of_vacuous {P : (List Char × Nat) → (List Char × Nat) → Prop}
    (hvac : ∀ a b, b.2 < a.2 → P a b) :
    ∀ {l : List (List Char × Nat)}, l.Pairwise P → (sortDesc l).Pairwise P := by
  intro l
  induction l with
  | nil => intro _; simp [sortDesc]
  | cons a l ih =>
    intro hpw
    rcases List.pairwise_cons.1 hpw with ⟨ha, hl⟩
    show (insertDesc a (sortDesc l)).Pairwise P
    refine pairwise_insertDesc_of_vacuous hvac a ?_ (ih hl)
    intro q hq
    exact ha q ((perm_sortDesc l).mem_iff.1 hq)

lemma firstIdx_cons (w a : List Char) (l : List (List Char)) :
    firstIdx w (a :: l) = if a = w then 0 else firstIdx w l + 1 := rfl

lemma pairwise_firstIdx_dedupFirst :
    ∀ ws : List (List Char),
      (dedupFirst ws).Pairwise (fun a b => firstIdx a ws < firstIdx b ws) := by
  intro ws
  induction ws with
  | nil => simp [dedupFirst]
  | cons c t ih =>
    show (c :: (dedupFirst t).filter (fun b => b ≠ c)).Pairwise _
    refine List.pairwise_cons.2 ⟨?_, ?_⟩
    · intro b hb
      have hbne : b ≠ c := by
        have := (List.mem_filter.1 hb).2
        simpa using this
      rw [firstIdx_cons, firstIdx_cons, if_pos rfl, if_neg (fun hcb => hbne hcb.symm)]
      omega
    · have hsub : List.Sublist ((dedupFirst t).filter (fun b => b ≠ c)) (dedupFirst t) :=
        List.filter_sublist _
      have hpw := ih.sublist hsub
      refine hpw.imp_of_mem ?_
      intro a b ha hb hab
      have hane : a ≠ c := by
        have := (List.mem_filter.1 ha).2
        simpa using this
      have hbne : b ≠ c := by
        have := (List.mem_filter.1 hb).2
        simpa using this
      rw [firstIdx_cons, firstIdx_cons, if_neg (fun h => hane h.symm),
        if_neg (fun h => hbne h.symm)]
      omega

lemma mem_of_mem_dedupFirst :
    ∀ {ws : List (List Char)} {x : List Char}, x ∈ dedupFirst ws → x ∈ ws := by
  intro ws
  induction ws with
  | nil => intro x hx; simp [dedupFirst] at hx
  | cons a l ih =>
    intro x hx
    rcases List.mem_cons.1 hx with rfl | hx'
    · exact List.mem_cons_self x l
    · exact List.mem_cons_of_mem a (ih (List.mem_filter.1 hx').1)

lemma nodup_dedupFirst : ∀ ws : List (List Char), (dedupFirst ws).Nodup := by
  intro ws
  induction ws with
  | nil => simp [dedupFirst]
  | cons a l ih =>
    refine List.nodup_cons.2 ⟨?_, ih.filter _⟩
    intro ha
    have := (List.mem_filter.1 ha).2
    simp at this

lemma countOcc_pos_of_mem {w : List Char} {ws : List (List Char)} (h : w ∈ ws) :
    1 ≤ countOcc w ws := by
  have hm : w ∈ ws.filter (fun v => v = w) := List.mem_filter.2 ⟨h, by simp⟩
  have := List.length_pos.2 (List.ne_nil_of_mem hm)
  exact this

lemma countOcc_cons (w c : List Char) (t : List (List Char)) :
    countOcc w (c :: t) = (if c = w then 1 else 0) + countOcc w t := by
  unfold countOcc
  rw [List.filter_cons]
  by_cases h : c = w
  · rw [if_pos (by simp [h]), if_pos h, List.length_cons]
    omega
  · rw [if_neg (by simp [h]), if_neg h]
    omega

lemma length_filter_ne_cons (a c : List Char) (t : List (List Char)) :
    ((c :: t).filter (fun v => v ≠ a)).length =
      (if c = a then 0 else 1) + (t.filter (fun v => v ≠ a)).length := by
  rw [List.filter_cons]
  by_cases h : c = a
  · rw [if_neg (by simp [h]), if_pos h]
    omega
  · rw [if_pos (by simp [h]), if_neg h, List.length_cons]
    omega

lemma countOcc_add_length_filter_ne (a : List Char) (ws : List (List Char)) :
    countOcc a ws + (ws.filter (fun v => v ≠ a)).length = ws.length := by
  induction ws with
  | nil => rfl
  | cons c t ih =>
    rw [countOcc_cons, length_filter_ne_cons, List.length_cons]
    by_cases h : c = a
    · rw [if_pos h, if_pos h]
      omega
    · rw [if_neg h, if_neg h]
      omega

lemma countOcc_filter_ne {w a : List Char} (h : w ≠ a) (ws : List (List Char)) :
    countOcc w (ws.filter (fun v => v ≠ a)) = countOcc w ws := by
  induction ws with
  | nil => rfl
  | cons c t ih =>
    rw [List.filter_cons]
    by_cases hca : c = a
    · have hcw : c ≠ w := by
        intro hcw
        apply h
        rw [← hcw, hca]
      rw [if_neg (by simp [hca]), ih, countOcc_cons, if_neg hcw]
      omega
    · rw [if_pos (by simp [hca]), countOcc_cons, countOcc_cons, ih]

lemma sum_counts_le :
    ∀ (l : List (List Char)) (ws : List (List Char)), l.Nodup →
      ((l.map (fun w => countOcc w ws)).sum ≤ ws.length) := by
  intro l
  induction l with
  | nil => intro ws _; simp
  | cons a l ih =>
    intro ws hnd
    rcases List.nodup_cons.1 hnd with ⟨ha, hl⟩
    have hmap : l.map (fun w => countOcc w ws) =
        l.map (fun w => countOcc w (ws.filter (fun v => v ≠ a))) := by
      refine List.map_congr_left ?_
      intro w hw
      have hwa : w ≠ a := by
        intro he
        subst he
        exact ha hw
      exact (countOcc_filter_ne hwa ws).symm
    have h1 := ih (ws.filter (fun v => v ≠ a)) hl
    have h2 := countOcc_add_length_filter_ne a ws
    simp only [List.map_cons, List.sum_cons, hmap]
    omega

lemma sum_take_le (l : List Nat) (n : Nat) : (l.take n).sum ≤ l.sum := by
  conv_rhs => rw [← List.take_append_drop n l]
  rw [List.sum_append]
  exact Nat.le_add_right _ _

/-- The three ranking properties of `most_common`: at most `n` entries,
counts in descending order, ties in first-occurrence order. -/
lemma mostCommon_ranking (n : Nat) (ws : List (List Char)) :
    (mostCommon n ws).length ≤ n ∧
    (mostCommon n ws).Pairwise (fun p q => q.2 ≤ p.2) ∧
    (mostCommon n ws).Pairwise
      (fun p q => p.2 = q.2 → firstIdx p.1 ws < firstIdx q.1 ws) := by
  refine ⟨?_, ?_, ?_⟩
  · rw [mostCommon, List.length_take]
    exact min_le_left _ _
  · exact (sorted_sortDesc _).sublist (List.take_sublist n _)
  · have hbase : ((dedupFirst ws).map (fun w => (w, countOcc w ws))).Pairwise
        (fun p q => p.2 = q.2 → firstIdx p.1 ws < firstIdx q.1 ws) := by
      rw [List.pairwise_map]
      refine List.Pairwise.imp ?_ (pairwise_firstIdx_dedupFirst ws)
      intro x y hxy _
      exact hxy
    have hsorted := pairwise_sortDesc_of_vacuous
      (fun x y hlt heq => by omega) hbase
    exact hsorted.sublist (List.take_sublist n _)

/-- Every count reported by `most_common` is at least `1`, and the
counts sum to at most the total number of tokens. -/
lemma mostCommon_counts (n : Nat) (ws : List (List Char)) :
    (∀ p ∈ mostCommon n ws, 1 ≤ p.2) ∧
    ((mostCommon n ws).map Prod.snd).sum ≤ ws.length := by
  constructor
  · intro p hp
    have hp1 : p ∈ sortDesc ((dedupFirst ws).map (fun w => (w, countOcc w ws))) :=
      (List.take_sublist n _).subset hp
    have hp2 := (perm_sortDesc _).mem_iff.1 hp1
    obtain ⟨w, hw, hwp⟩ := List.mem_map.1 hp2
    rw [← hwp]
    exact countOcc_pos_of_mem (mem_of_mem_dedupFirst hw)
  · have h1 : ((mostCommon n ws).map Prod.snd).sum ≤
        ((sortDesc ((dedupFirst ws).map (fun w => (w, countOcc w ws)))).map Prod.snd).sum := by
      rw [mostCommon, List.map_take]
      exact sum_take_le _ _
    have h2 : ((sortDesc ((dedupFirst ws).map (fun w => (w, countOcc w ws)))).map Prod.snd).sum =
        (((dedupFirst ws).map (fun w => (w, countOcc w ws))).map Prod.snd).sum :=
      ((perm_sortDesc _).map Prod.snd).sum_eq
    have h3 : (((dedupFirst ws).map (fun w => (w, countOcc w ws))).map Prod.snd).sum =
        ((dedupFirst ws).map (fun w => countOcc w ws)).sum := by
      rw [List.map_map]
      rfl
    have h4 := sum_counts_le (dedupFirst ws) ws (nodup_dedupFirst ws)
    omega

/-- C1: for every input text, the `top_words` sequence has length at
most 5, is sorted by descending count, breaks ties by the
first-occurrence order of the words in the tokenized text, and is empty
when the text trims to empty. -/
theorem top_words_spec (t : List Char) (a : List Char → SentimentScores) :
    (analyze_text t a).top_words.length ≤ 5 ∧
    (analyze_text t a).top_words.Pairwise (fun p q => q.2 ≤ p.2) ∧
    (analyze_text t a).top_words.Pairwise
      (fun p q => p.2 = q.2 →
        firstIdx p.1 (tokenize ((pyStrip t).map pyLower)) <
          firstIdx q.1 (tokenize ((pyStrip t).map pyLower))) ∧
    (pyStrip t = [] → (analyze_text t a).top_words = []) := by
  have htw : (analyze_text t a).top_words =
      mostCommon 5 (tokenize ((pyStrip t).map pyLower)) := rfl
  obtain ⟨h1, h2, h3⟩ := mostCommon_ranking 5 (tokenize ((pyStrip t).map pyLower))
  refine ⟨htw ▸ h1, htw ▸ h2, htw ▸ h3, ?_⟩
  intro h
  rw [htw, h]
  rfl

/-- C1 witness: `top_words_spec` applied to the empty text, which also
discharges the emptiness hypothesis of the last conjunct. -/
theorem top_words_spec_witness :
    (analyze_text [] zeroAnalyzer).top_words.length ≤ 5 ∧
    (analyze_text [] zeroAnalyzer).top_words.Pairwise (fun p q => q.2 ≤ p.2) ∧
    (analyze_text [] zeroAnalyzer).top_words.Pairwise
      (fun p q => p.2 = q.2 →
        firstIdx p.1 (tokenize ((pyStrip []).map pyLower)) <
          firstIdx q.1 (tokenize ((pyStrip []).map pyLower))) ∧
    (analyze_text [] zeroAnalyzer).top_words = [] := by
  obtain ⟨h1, h2, h3, h4⟩ := top_words_spec [] zeroAnalyzer
  exact ⟨h1, h2, h3, h4 rfl⟩

/-- C10: every result satisfies `chars_without_spaces ≤
chars_with_spaces`, every listed count is at least `1`, and the listed
counts sum to at most `word_count`. -/
theorem result_invariant (t : List Char) (a : List Char → SentimentScores) :
    (analyze_text t a).chars_without_spaces ≤ (analyze_text t a).chars_with_spaces ∧
    (∀ p ∈ (analyze_text t a).top_words, 1 ≤ p.2) ∧
    ((analyze_text t a).top_words.map Prod.snd).sum ≤ (analyze_text t a).words := by
  have htw : (analyze_text t a).top_words =
      mostCommon 5 (tokenize ((pyStrip t).map pyLower)) := rfl
  have hwc : (analyze_text t a).words =
      (tokenize ((pyStrip t).map pyLower)).length := rfl
  obtain ⟨hc1, hc2⟩ := mostCommon_counts 5 (tokenize ((pyStrip t).map pyLower))
  refine ⟨?_, ?_, ?_⟩
  · show ((pyStrip t).filter (fun c => !(pyIsSpace c))).length ≤ (pyStrip t).length
    exact List.length_filter_le _ _
  · rw [htw]
    exact hc1
  · rw [htw, hwc]
    exact hc2

/-- C10 witness: `result_invariant` applied to a concrete text, with the
per-entry count bound instantiated at the concrete entry `(hi, 2)` of its
`top_words`. -/
theorem result_invariant_witness :
    (analyze_text "hi bye hi".toList zeroAnalyzer).chars_without_spaces ≤
      (analyze_text "hi bye hi".toList zeroAnalyzer).chars_with_spaces ∧
    (1 : Nat) ≤ (("hi".toList, 2) : List Char × Nat).2 ∧
    ((analyze_text "hi bye hi".toList zeroAnalyzer).top_words.map Prod.snd).sum ≤
      (analyze_text "hi bye hi".toList zeroAnalyzer).words := by
  obtain ⟨h1, h2, h3⟩ := result_invariant "hi bye hi".toList zeroAnalyzer
  exact ⟨h1, h2 ("hi".toList, 2) (by decide), h3⟩

end TextAnalyzer
